import Mathlib

/-!
Verification of the qt-web-bridge repository's natural-language specification
against a shallow embedding of its Python source.

The embedding covers:
* `bridge.py` — `WebViewBridge` JSON helpers, `DataBridge` (items list plus
  id-keyed lookup dict, with Python object aliasing modelled by an explicit
  heap of references), `ActionBridge` (`execute_action`).
* `webview.py` — `CleanWebView.load_content` content resolution and
  `_on_load_finished` callback sequencing.

Modelling conventions:
* JSON values are the inductive `JVal`; item records are insertion-ordered
  association lists (`Item`), mirroring Python dicts.
* Python object aliasing between `_items` and `_items_by_id` is modelled by a
  heap `Nat → Item`: both structures hold references (`Nat`), and in-place
  `dict.update` mutation is a heap update, exactly as in CPython.
* Qt signals are modelled as trace events (`Ev`): emitting a signal appends a
  typed event carrying the emitted values.  Qt-level runtime type enforcement
  of signal signatures is below this embedding.
* The id-keyed dict `_items_by_id` is keyed by truthy *string* ids, following
  the data model ("identifier (string, required)"); non-string id values are
  outside the scope of every claim.
* `json.dumps(..., ensure_ascii=False)` / `json.loads` are modelled by
  `pyDumps` / `pyParse` over the JSON fragment with integer numerals (floats
  are not representable in `JVal`); exception message texts that interpolate
  Python exception objects are abstracted to fixed prefixes.
-/

/-- JSON values, as produced by Python's `json` module (integer numerals). -/
inductive JVal where
  | jstr (s : String)
  | jnum (n : Int)
  | jbool (b : Bool)
  | jnull
  | jarr (xs : List JVal)
  | jobj (fields : List (String × JVal))

/-- An item record: an insertion-ordered Python dict from field name to value. -/
abbrev Item := List (String × JVal)

/-- Python truthiness of a JSON value (`bool(v)`). -/
def pyTruthy : JVal → Bool
  | .jstr s => s ≠ ""
  | .jnum n => n ≠ 0
  | .jbool b => b
  | .jnull => false
  | .jarr xs => !xs.isEmpty
  | .jobj fs => !fs.isEmpty

/-- First-match association-list lookup (Python `d[k]` / `d.get(k)` on a dict
whose entries are listed in insertion order; keys are unique in real dicts, so
first match is the match). -/
def lookupAssoc {α : Type} (k : String) : List (String × α) → Option α
  | [] => none
  | (k', v) :: rest => if k' = k then some v else lookupAssoc k rest

/-- Python dict assignment `d[k] = v`: replace the value in place if the key
is present (keeping its position), otherwise append the new entry. -/
def dictInsert {α : Type} (k : String) (v : α) : List (String × α) → List (String × α)
  | [] => [(k, v)]
  | (k', v') :: rest => if k' = k then (k, v) :: rest else (k', v') :: dictInsert k v rest

/-- Python `x.update(d)`: assign every entry of `d` into `x`, left to right. -/
def pyDictUpdate (x : Item) : Item → Item
  | [] => x
  | (k, v) :: rest => pyDictUpdate (dictInsert k v x) rest

/-- Opening brace character. -/
def lbrace : String := "\x7b"

/-- Closing brace character. -/
def rbrace : String := "\x7d"

/-- Hexadecimal rendering of `n` padded to four digits (for `\u00XX` escapes). -/
def hex4 (n : Nat) : String :=
  let ds := Nat.toDigits 16 n
  let pad := List.replicate (4 - ds.length) '0'
  String.mk (pad ++ ds)

/-- JSON string escaping as performed by `json.dumps(..., ensure_ascii=False)`. -/
def escChar (c : Char) : String :=
  if c = '"' then "\\\""
  else if c = '\\' then "\\\\"
  else if c = '\n' then "\\n"
  else if c = '\t' then "\\t"
  else if c = '\r' then "\\r"
  else if c.toNat = 8 then "\\b"
  else if c.toNat = 12 then "\\f"
  else if c.toNat < 32 then "\\u" ++ hex4 c.toNat
  else String.singleton c

/-- Escape a whole string for JSON output. -/
def escStr (s : String) : String :=
  s.data.foldl (fun acc c => acc ++ escChar c) ""

mutual

/-- Model of `json.dumps(v, ensure_ascii=False)` with Python's default
separators (`", "` between members, `": "` after keys). -/
def pyDumps : JVal → String
  | .jstr s => "\"" ++ escStr s ++ "\""
  | .jnum n => toString n
  | .jbool b => if b then "true" else "false"
  | .jnull => "null"
  | .jarr xs => "[" ++ dumpElems xs ++ "]"
  | .jobj fs => lbrace ++ dumpFields fs ++ rbrace

/-- Comma-separated rendering of array elements. -/
def dumpElems : List JVal → String
  | [] => ""
  | [x] => pyDumps x
  | x :: y :: rest => pyDumps x ++ ", " ++ dumpElems (y :: rest)

/-- Comma-separated rendering of object members. -/
def dumpFields : List (String × JVal) → String
  | [] => ""
  | [(k, v)] => "\"" ++ escStr k ++ "\": " ++ pyDumps v
  | (k, v) :: p :: rest => "\"" ++ escStr k ++ "\": " ++ pyDumps v ++ ", " ++ dumpFields (p :: rest)

end

/-- Events emitted through Qt signals, recorded as a trace.  Covers the
signals of `WebViewBridge`, `DataBridge` and `ActionBridge` that the claims
mention. -/
inductive Ev where
  | itemsLoaded (json : String)
  | dataUpdated (json : String)
  | itemUpdated (id : JVal) (json : String)
  | searchResults (json : String)
  | errorOccurred (msg : String)
  | actionRequested (actionType : String) (paramsJson : String)
  | actionCompleted (key : JVal) (resultJson : String)

/-- DataBridge state.  `heap` assigns dict contents to references; `items` is
`self._items` (a Python list of dict references); `byId` is
`self._items_by_id` (insertion-ordered dict from id string to reference);
`next` is the next fresh reference. -/
structure DB where
  heap : Nat → Item
  next : Nat
  items : List Nat
  byId : List (String × Nat)

/-- The freshly constructed `DataBridge`: empty list, empty dict. -/
def emptyDB : DB where
  heap := fun _ => []
  next := 0
  items := []
  byId := []

/-- The id of an item as used by the `_items_by_id` comprehension filter
`if item.get("id")`: a string id that is truthy (non-empty).  Items without
such an id are not indexed. -/
def truthyStrId (it : Item) : Option String :=
  match lookupAssoc "id" it with
  | some (.jstr s) => if s = "" then none else some s
  | _ => none

/-- Id of the item referred to by `r` under heap `h`. -/
def idOf (h : Nat → Item) (r : Nat) : Option String :=
  truthyStrId (h r)

/-- Python comparison `item.get("id") == item_id` for a string `item_id`:
true exactly when the id field is present and equals that string (a
non-string value never equals a `str`). -/
def idEqStr (it : Item) (i : String) : Bool :=
  match lookupAssoc "id" it with
  | some (.jstr s) => s == i
  | _ => false

/-- The dict comprehension
`{item.get("id"): item for item in items if item.get("id")}`, over references:
process left to right, later duplicate ids overwrite earlier values in place. -/
def rebuild (h : Nat → Item) : List Nat → List (String × Nat) → List (String × Nat)
  | [], acc => acc
  | r :: rs, acc =>
    match idOf h r with
    | some s => rebuild h rs (dictInsert s r acc)
    | none => rebuild h rs acc

/-- Replace the first list element satisfying `p` by `v` (the
`for i, item in enumerate(...)  ... break` loop in `update_item`). -/
def replaceFirst {α : Type} (p : α → Bool) (v : α) : List α → List α
  | [] => []
  | x :: xs => if p x then v :: xs else x :: replaceFirst p v xs

/-- Allocate fresh references for a list of caller-supplied item values,
extending the heap.  Returns the extended heap, the new allocation bound and
the references in order. -/
def allocAll (h : Nat → Item) (n : Nat) : List Item → ((Nat → Item) × Nat × List Nat)
  | [] => (h, n, [])
  | it :: rest =>
    let res := allocAll (fun m => if m = n then it else h m) (n + 1) rest
    (res.1, res.2.1, n :: res.2.2)

/-- JSON array rendering of the current items (used by several signals). -/
def itemsJson (h : Nat → Item) (rs : List Nat) : String :=
  pyDumps (.jarr (rs.map (fun r => .jobj (h r))))

/-- Internal `set_items` on an existing reference list: store the list and
rebuild the id index, then emit `items_loaded` and `data_updated` with the
full list JSON.  (`add_item` and `remove_item` re-enter `set_items` with
`self._items` itself, i.e. with references, so no copies are made.) -/
def setItemsRefs (rs : List Nat) (db : DB) : DB × List Ev :=
  let j := itemsJson db.heap rs
  ({ db with items := rs, byId := rebuild db.heap rs [] },
   [.itemsLoaded j, .dataUpdated j])

/-- `DataBridge.set_items(items)` called with caller-supplied item values:
the values become fresh dict objects shared between the list and the index. -/
def setItems (S : List Item) (db : DB) : DB × List Ev :=
  let res := allocAll db.heap db.next S
  setItemsRefs res.2.2 { db with heap := res.1, next := res.2.1 }

/-- `DataBridge.update_item(item_id, item_data)`: if the id is indexed, merge
the fields into the shared dict in place (a heap update), replace the first
list entry whose id equals `item_id` by that dict, and emit `item_updated`
with the partial fields; otherwise emit an error naming the id. -/
def updateItem (i : String) (d : Item) (db : DB) : DB × List Ev :=
  match lookupAssoc i db.byId with
  | some r0 =>
    let merged := pyDictUpdate (db.heap r0) d
    let h' := fun m => if m = r0 then merged else db.heap m
    let items' := replaceFirst (fun r => idEqStr (h' r) i) r0 db.items
    ({ db with heap := h', items := items' },
     [.itemUpdated (.jstr i) (pyDumps (.jobj d))])
  | none => (db, [.errorOccurred ("Item not found: " ++ i)])

/-- `DataBridge.get_all_items()`. -/
def getAllItems (db : DB) : String :=
  itemsJson db.heap db.items

/-- `DataBridge.get_item(item_id)`: the indexed record, or an encoded empty
object for an unknown id. -/
def getItem (i : String) (db : DB) : String :=
  match lookupAssoc i db.byId with
  | some r => pyDumps (.jobj (db.heap r))
  | none => pyDumps (.jobj [])

/-- `DataBridge.add_item(item)`: only acts when the `"id"` key is present;
appends the (freshly allocated) dict, emits `item_updated` for it, then
re-broadcasts through `set_items(self._items)`. -/
def addItem (it : Item) (db : DB) : DB × List Ev :=
  match lookupAssoc "id" it with
  | some idv =>
    let r := db.next
    let h' := fun m => if m = r then it else db.heap m
    let db' : DB := { db with heap := h', next := db.next + 1 }
    let res := setItemsRefs (db.items ++ [r]) db'
    (res.1, .itemUpdated idv (pyDumps (.jobj it)) :: res.2)
  | none => (db, [])

/-- `DataBridge.remove_item(item_id)`: if indexed, drop the index entry, filter
the list by `item.get("id") != item_id`, and re-broadcast through
`set_items`; otherwise emit an error naming the id.  (The explicit `del` on
the index is subsumed by the rebuild in `set_items`.) -/
def removeItem (i : String) (db : DB) : DB × List Ev :=
  match lookupAssoc i db.byId with
  | some _ =>
    let rs := db.items.filter (fun r => !(idEqStr (db.heap r) i))
    setItemsRefs rs db
  | none => (db, [.errorOccurred ("Item not found for removal: " ++ i)])

/-- The observable item list: the dict contents in list order. -/
def obsItems (db : DB) : List Item :=
  db.items.map db.heap

/-- The observable id-keyed lookup: what `_items_by_id[k]` holds, as a value.
Python dict equality compares key-value sets, which for unique keys is
exactly lookup extensionality. -/
def obsLookup (db : DB) (k : String) : Option Item :=
  (lookupAssoc k db.byId).map db.heap

/-! ### Allocation lemmas -/

theorem allocAll_heap_lt (S : List Item) (h : Nat → Item) (n m : Nat) (hm : m < n) :
    (allocAll h n S).1 m = h m := by
  induction S generalizing h n with
  | nil => rfl
  | cons it rest ih =>
    simp only [allocAll]
    rw [ih _ (n + 1) (Nat.lt_succ_of_lt hm)]
    simp [Nat.ne_of_lt hm]

theorem allocAll_map (S : List Item) (h : Nat → Item) (n : Nat) :
    (allocAll h n S).2.2.map (allocAll h n S).1 = S := by
  induction S generalizing h n with
  | nil => rfl
  | cons it rest ih =>
    simp only [allocAll, List.map_cons]
    rw [allocAll_heap_lt rest _ (n + 1) n (Nat.lt_succ_self n), ih]
    simp

theorem allocAll_next (S : List Item) (h : Nat → Item) (n : Nat) :
    (allocAll h n S).2.1 = n + S.length := by
  induction S generalizing h n with
  | nil => simp [allocAll]
  | cons it rest ih => simp [allocAll, ih]; omega

theorem allocAll_refs_lt (S : List Item) (h : Nat → Item) (n : Nat) :
    ∀ r ∈ (allocAll h n S).2.2, n ≤ r ∧ r < n + S.length := by
  induction S generalizing h n with
  | nil => simp [allocAll]
  | cons it rest ih =>
    intro r hr
    simp only [allocAll, List.mem_cons] at hr
    rcases hr with rfl | hr
    · simp
    · have := ih _ (n + 1) r hr
      simp only [List.length_cons]
      omega

/-- C2: for every list of item records `S`, `set_items(S)` followed by
`get_all_items()` returns the JSON encoding of exactly `S`, with the items in
the same order as in `S`. -/
theorem set_items_then_get_all_items_encodes_S (db : DB) (S : List Item) :
    getAllItems (setItems S db).1 = pyDumps (.jarr (S.map .jobj)) := by
  simp only [setItems, setItemsRefs, getAllItems, itemsJson]
  have : (allocAll db.heap db.next S).2.2.map
      (fun r => JVal.jobj ((allocAll db.heap db.next S).1 r))
      = S.map .jobj := by
    have h := allocAll_map S db.heap db.next
    calc (allocAll db.heap db.next S).2.2.map
          (fun r => JVal.jobj ((allocAll db.heap db.next S).1 r))
        = ((allocAll db.heap db.next S).2.2.map (allocAll db.heap db.next S).1).map .jobj := by
          rw [List.map_map]; rfl
      _ = S.map .jobj := by rw [h]
  rw [this]

/-! ### Association-list lemmas -/

theorem lookupAssoc_dictInsert {α : Type} (k k' : String) (v : α) (m : List (String × α)) :
    lookupAssoc k (dictInsert k' v m) = if k' = k then some v else lookupAssoc k m := by
  induction m with
  | nil => simp [dictInsert, lookupAssoc]
  | cons p rest ih =>
    obtain ⟨a, b⟩ := p
    by_cases hak : a = k'
    · subst hak
      simp only [dictInsert, if_pos rfl, lookupAssoc]
      by_cases h : a = k <;> simp [h]
    · simp only [dictInsert, if_neg hak, lookupAssoc]
      by_cases h : a = k
      · subst h
        have : ¬ (k' = a) := fun hh => hak hh.symm
        simp [this]
      · simp [h, ih]

theorem lookupAssoc_eq_none_of_not_mem {α : Type} (k : String) (l : List (String × α))
    (h : k ∉ l.map Prod.fst) : lookupAssoc k l = none := by
  induction l with
  | nil => rfl
  | cons p rest ih =>
    simp only [List.map_cons, List.mem_cons] at h
    push_neg at h
    simp only [lookupAssoc]
    rw [if_neg (fun hh => h.1 hh.symm)]
    exact ih h.2

theorem lookupAssoc_eq_some_of_mem {α : Type} (k : String) (v : α) (l : List (String × α))
    (hnd : (l.map Prod.fst).Nodup) (hm : (k, v) ∈ l) : lookupAssoc k l = some v := by
  induction l with
  | nil => cases hm
  | cons p rest ih =>
    obtain ⟨a, b⟩ := p
    simp only [List.map_cons, List.nodup_cons] at hnd
    rcases List.mem_cons.mp hm with h | h
    · cases h
      simp [lookupAssoc]
    · simp only [lookupAssoc]
      have : a ≠ k := by
        rintro rfl
        exact hnd.1 (List.mem_map.mpr ⟨(a, v), h, rfl⟩)
      rw [if_neg this]
      exact ih hnd.2 h

theorem mem_of_lookupAssoc_eq_some {α : Type} (k : String) (v : α) (l : List (String × α))
    (h : lookupAssoc k l = some v) : (k, v) ∈ l := by
  induction l with
  | nil => cases h
  | cons p rest ih =>
    obtain ⟨a, b⟩ := p
    simp only [lookupAssoc] at h
    by_cases hak : a = k
    · subst hak
      rw [if_pos rfl] at h
      cases h
      exact List.mem_cons_self _ _
    · rw [if_neg hak] at h
      exact List.mem_cons_of_mem _ (ih h)

/-- Merging leaves fields that are absent from the partial update unchanged. -/
theorem pyDictUpdate_lookup_of_absent (d : Item) (x : Item) (k : String)
    (h : lookupAssoc k d = none) :
    lookupAssoc k (pyDictUpdate x d) = lookupAssoc k x := by
  induction d generalizing x with
  | nil => rfl
  | cons p rest ih =>
    obtain ⟨k', v'⟩ := p
    simp only [lookupAssoc] at h
    by_cases hk : k' = k
    · rw [if_pos hk] at h; cases h
    · rw [if_neg hk] at h
      simp only [pyDictUpdate]
      rw [ih (dictInsert k' v' x) h, lookupAssoc_dictInsert, if_neg hk]

/-- Merging stores every field of the partial update. -/
theorem pyDictUpdate_lookup_of_mem (d : Item) (x : Item) (k : String) (v : JVal)
    (hnd : (d.map Prod.fst).Nodup) (hm : (k, v) ∈ d) :
    lookupAssoc k (pyDictUpdate x d) = some v := by
  induction d generalizing x with
  | nil => cases hm
  | cons p rest ih =>
    obtain ⟨k', v'⟩ := p
    simp only [List.map_cons, List.nodup_cons] at hnd
    rcases List.mem_cons.mp hm with h | h
    · cases h
      simp only [pyDictUpdate]
      rw [pyDictUpdate_lookup_of_absent _ _ _
            (lookupAssoc_eq_none_of_not_mem _ _ hnd.1),
          lookupAssoc_dictInsert, if_pos rfl]
    · simp only [pyDictUpdate]
      exact ih _ hnd.2 h

/-- C5: `update_item(i, fields)` with an existing id merges the fields into the
stored record — a subsequent `get_item(i)` returns the merged record, in which
every given field has its new value and every other field is unchanged — and
emits exactly one `item_updated` event carrying `i` and the JSON-encoded
partial fields; with a missing id the state is left entirely unchanged and a
single error event naming `i` fires. -/
theorem update_item_merges_and_errors (db : DB) (i : String) (d : Item)
    (hd : (d.map Prod.fst).Nodup) :
    (∀ r0, lookupAssoc i db.byId = some r0 →
      (updateItem i d db).2 = [.itemUpdated (.jstr i) (pyDumps (.jobj d))] ∧
      getItem i (updateItem i d db).1 = pyDumps (.jobj (pyDictUpdate (db.heap r0) d)) ∧
      (∀ k v, (k, v) ∈ d → lookupAssoc k (pyDictUpdate (db.heap r0) d) = some v) ∧
      (∀ k, lookupAssoc k d = none →
        lookupAssoc k (pyDictUpdate (db.heap r0) d) = lookupAssoc k (db.heap r0))) ∧
    (lookupAssoc i db.byId = none →
      updateItem i d db = (db, [.errorOccurred ("Item not found: " ++ i)])) := by
  constructor
  · intro r0 h
    refine ⟨by simp [updateItem, h], ?_, ?_, ?_⟩
    · simp [updateItem, h, getItem]
    · intro k v hm
      exact pyDictUpdate_lookup_of_mem d _ k v hd hm
    · intro k hk
      exact pyDictUpdate_lookup_of_absent d _ k hk
  · intro h
    simp [updateItem, h]

/-- Witness for the `update_item` theorem at a concrete bridge state. -/
theorem update_item_merges_and_errors_witness :
    getItem "x" (updateItem "x" [("a", JVal.jnum 2), ("b", JVal.jstr "t")]
        (setItems [[("id", JVal.jstr "x"), ("a", JVal.jnum 1)]] emptyDB).1).1
      = "\x7b\"id\": \"x\", \"a\": 2, \"b\": \"t\"\x7d" ∧
    (updateItem "nope" [] (setItems [[("id", JVal.jstr "x")]] emptyDB).1).2
      = [.errorOccurred "Item not found: nope"] := by
  constructor
  · have h := (update_item_merges_and_errors
      (setItems [[("id", JVal.jstr "x"), ("a", JVal.jnum 1)]] emptyDB).1
      "x" [("a", JVal.jnum 2), ("b", JVal.jstr "t")] (by decide)).1 0 rfl
    rw [h.2.1]
    rfl
  · have h := (update_item_merges_and_errors
      (setItems [[("id", JVal.jstr "x")]] emptyDB).1 "nope" [] (by decide)).2 rfl
    rw [h]
    rfl

/-! ### Search (`request_search`) -/

/-- Leading-run match: the first list is an initial segment of the second. -/
def takeEq : List Char → List Char → Bool
  | [], _ => true
  | _ :: _, [] => false
  | a :: as, b :: bs => a == b && takeEq as bs

/-- Python substring test `needle in hay`. -/
def hasSub (hay needle : String) : Bool :=
  (List.range (hay.data.length + 1)).any (fun i => takeEq needle.data (hay.data.drop i))

/-- Lower-casing as in Python's `str.lower()`, restricted to the ASCII range
(the fragment every claim exercises). -/
def lowerStr (s : String) : String :=
  String.mk (s.data.map Char.toLower)

/-- Python `item.get(k, "")` followed by `.lower()`-compatibility: `some` is
the string to lower-case, `none` means `.lower()` raises because the present
value is not a string. -/
def fieldStr (it : Item) (k : String) : Option String :=
  match lookupAssoc k it with
  | none => some ""
  | some (.jstr s) => some s
  | some _ => none

/-- An item on which the default search can read both searchable fields
without raising: `name` and `description` are strings where present. -/
def searchable (it : Item) : Bool :=
  (fieldStr it "name").isSome && (fieldStr it "description").isSome

/-- The string value of a field, or the empty string when absent or
non-string (only used on `searchable` items, where the cases coincide with
`fieldStr`). -/
def strOrEmpty (it : Item) (k : String) : String :=
  match lookupAssoc k it with
  | some (.jstr s) => s
  | _ => ""

/-- Case-insensitive containment, the claim's notion of a match. -/
def containsCI (hay needle : String) : Bool :=
  hasSub (lowerStr hay) (lowerStr needle)

/-- An item matches a query when its name or description contains the query
case-insensitively. -/
def searchMatch (q : String) (it : Item) : Bool :=
  containsCI (strOrEmpty it "name") q || containsCI (strOrEmpty it "description") q

/-- One loop iteration of the default search: lower-case both configured
fields and test the lowered query for containment; `none` when a non-string
field value makes `.lower()` raise. -/
def searchKeep (q : String) (it : Item) : Option Bool :=
  match fieldStr it "name", fieldStr it "description" with
  | some nm, some ds => some (hasSub (lowerStr nm) (lowerStr q) || hasSub (lowerStr ds) (lowerStr q))
  | _, _ => none

/-- The search loop over the item references: collect matches in order, or
abort with `none` when any iteration raises. -/
def searchFilter (q : String) (h : Nat → Item) : List Nat → Option (List Nat)
  | [] => some []
  | r :: rs =>
    match searchKeep q (h r) with
    | some b => (searchFilter q h rs).map (fun ks => if b then r :: ks else ks)
    | none => none

/-- `DataBridge.request_search(query)`: emit a single `search_results` event
with the JSON-encoded match list; `none` models an escaping exception (no
event at all). -/
def requestSearch (q : String) (db : DB) : Option (List Ev) :=
  (searchFilter q db.heap db.items).map
    (fun rs => [.searchResults (itemsJson db.heap rs)])

theorem searchKeep_eq_searchMatch (q : String) (it : Item) (hs : searchable it = true) :
    searchKeep q it = some (searchMatch q it) := by
  simp only [searchable, Bool.and_eq_true, Option.isSome_iff_exists] at hs
  obtain ⟨⟨nm, hnm⟩, ⟨ds, hds⟩⟩ := hs
  have h1 : strOrEmpty it "name" = nm := by
    simp only [fieldStr, strOrEmpty] at hnm ⊢
    cases h : lookupAssoc "name" it with
    | none => rw [h] at hnm; cases hnm; rfl
    | some v => rw [h] at hnm; cases v <;> simp_all
  have h2 : strOrEmpty it "description" = ds := by
    simp only [fieldStr, strOrEmpty] at hds ⊢
    cases h : lookupAssoc "description" it with
    | none => rw [h] at hds; cases hds; rfl
    | some v => rw [h] at hds; cases v <;> simp_all
  simp [searchKeep, hnm, hds, searchMatch, containsCI, h1, h2]

theorem searchFilter_eq_filter (q : String) (h : Nat → Item) (l : List Nat)
    (hs : ∀ r ∈ l, searchable (h r) = true) :
    searchFilter q h l = some (l.filter (fun r => searchMatch q (h r))) := by
  induction l with
  | nil => rfl
  | cons r rs ih =>
    simp only [searchFilter]
    rw [searchKeep_eq_searchMatch q (h r) (hs r (List.mem_cons_self _ _)),
        ih (fun r' hr' => hs r' (List.mem_cons_of_mem _ hr'))]
    by_cases hm : searchMatch q (h r) <;> simp [hm, List.filter_cons]

/-- C7: for a bridge whose items carry string `name`/`description` fields
where present, `request_search(q)` emits exactly one `search_results` event
whose payload is the JSON encoding of the subset of current items whose name
or description contains `q` case-insensitively, in item order; no exception
escapes and no error event fires, for any query. -/
theorem request_search_filters_case_insensitively (db : DB) (q : String)
    (hs : db.items.all (fun r => searchable (db.heap r)) = true) :
    requestSearch q db =
      some [.searchResults (itemsJson db.heap
        (db.items.filter (fun r => searchMatch q (db.heap r))))] := by
  rw [List.all_eq_true] at hs
  simp only [requestSearch]
  rw [searchFilter_eq_filter q db.heap db.items (fun r hr => hs r hr)]
  rfl

/-- Witness for the search theorem on the specification's own example: query
`"red"` over Apple/Banana/Cherry selects Apple and Cherry, in order. -/
theorem request_search_filters_case_insensitively_witness :
    requestSearch "red" (setItems
      [[("name", JVal.jstr "Apple"), ("description", JVal.jstr "Red fruit")],
       [("name", JVal.jstr "Banana"), ("description", JVal.jstr "Yellow fruit")],
       [("name", JVal.jstr "Cherry"), ("description", JVal.jstr "Red berry")]] emptyDB).1 =
    some [.searchResults
      ("[" ++ lbrace ++ "\"name\": \"Apple\", \"description\": \"Red fruit\"" ++ rbrace
        ++ ", " ++ lbrace ++ "\"name\": \"Cherry\", \"description\": \"Red berry\"" ++ rbrace
        ++ "]")] := by
  rw [request_search_filters_case_insensitively _ "red" (by rfl)]
  rfl

theorem hasSub_empty_needle (s : String) : hasSub s "" = true := by
  simp only [hasSub]
  exact List.any_eq_true.mpr ⟨0, List.mem_range.mpr (Nat.succ_pos _), rfl⟩

theorem searchMatch_empty_query (it : Item) : searchMatch "" it = true := by
  have he : lowerStr "" = "" := rfl
  simp [searchMatch, containsCI, he, hasSub_empty_needle]

/-- C9: the empty query matches every item at the bridge itself:
`request_search("")` emits a `search_results` event whose payload is the JSON
encoding of the full current item list, with no caller-side special-casing. -/
theorem request_search_empty_query_returns_all (db : DB)
    (hs : db.items.all (fun r => searchable (db.heap r)) = true) :
    requestSearch "" db = some [.searchResults (getAllItems db)] := by
  rw [List.all_eq_true] at hs
  simp only [requestSearch]
  rw [searchFilter_eq_filter "" db.heap db.items (fun r hr => hs r hr)]
  simp [searchMatch_empty_query, getAllItems]

/-- Witness for the empty-query theorem at a concrete bridge state. -/
theorem request_search_empty_query_returns_all_witness :
    requestSearch "" (setItems
      [[("name", JVal.jstr "Apple")], [("name", JVal.jstr "Banana")]] emptyDB).1 =
    some [.searchResults ("[" ++ lbrace ++ "\"name\": \"Apple\"" ++ rbrace
      ++ ", " ++ lbrace ++ "\"name\": \"Banana\"" ++ rbrace ++ "]")] := by
  rw [request_search_empty_query_returns_all _ (by rfl)]
  rfl

/-! ### CleanWebView content resolution and load lifecycle (`webview.py`) -/

/-- The content configuration of a `CleanWebView`: `_web_content_path`,
`_dev_html_path`, `_dev_html_content`. -/
structure WVConfig where
  webContentPath : Option String
  devHtmlPath : Option String
  devHtmlContent : Option String

/-- A freshly constructed widget: no content configured. -/
def emptyWV : WVConfig where
  webContentPath := none
  devHtmlPath := none
  devHtmlContent := none

/-- `CleanWebView.set_web_content(content_path, dev_html)`: always records the
content root; records the dev HTML path (joined under the root) only when the
argument is a truthy (non-empty) string. -/
def setWebContent (contentPath : String) (devHtml : Option String) (c : WVConfig) : WVConfig :=
  let c' := { c with webContentPath := some contentPath }
  match devHtml with
  | some d => if d = "" then c' else { c' with devHtmlPath := some (contentPath ++ "/" ++ d) }
  | none => c'

/-- `CleanWebView.set_dev_html_content(html_content)`. -/
def setDevHtmlContent (html : String) (c : WVConfig) : WVConfig :=
  { c with devHtmlContent := some html }

/-- What `load_content` does: hand a file to the engine, materialize inline
HTML as a temp file and hand that to the engine, or emit `content_failed`
with the given reason (no engine call). -/
inductive LoadOutcome where
  | file (path : String)
  | inlineHtml (html : String)
  | failed (reason : String)

/-- The failure reason of the `FileNotFoundError` raised and re-emitted when
no content source is available. -/
def noContentMsg : String := "No web content available to load"

/-- The production candidate: `{content_path}/index.html` when the root is
configured and the file exists. -/
def resolveProd (fs : String → Bool) (c : WVConfig) : Option String :=
  match c.webContentPath with
  | some root => if fs (root ++ "/index.html") then some (root ++ "/index.html") else none
  | none => none

/-- The development-file candidate: `_dev_html_path` when configured and
existing. -/
def resolveDevFile (fs : String → Bool) (c : WVConfig) : Option String :=
  match c.devHtmlPath with
  | some p => if fs p then some p else none
  | none => none

/-- `CleanWebView.load_content()`, with the file system abstracted as an
existence oracle `fs`.  Mirrors the early-return chain: production build,
then dev HTML file, then truthy inline dev HTML, else the caught
`FileNotFoundError` becomes a `content_failed` emission. -/
def loadContent (fs : String → Bool) (c : WVConfig) : LoadOutcome :=
  match resolveProd fs c with
  | some p => .file p
  | none =>
    match resolveDevFile fs c with
    | some p => .file p
    | none =>
      match c.devHtmlContent with
      | some s => if s = "" then .failed noContentMsg else .inlineHtml s
      | none => .failed noContentMsg

/-- Events observable on the widget during `_on_load_finished`. -/
inductive WEv where
  | contentLoaded
  | bridgeReady
  | cbInvoked (idx : Nat)
  | logged (msg : String)
  | contentFailed (reason : String)

/-- Behaviour of one registered zero-argument load callback: `none` returns
normally, `some msg` raises an exception rendered as `msg`. -/
abbrev CbSpec := Option String

/-- Run the registered callbacks in order from index `i`: each is invoked; a
raising callback additionally produces a log line, and never stops the
remaining callbacks. -/
def runCbs (i : Nat) : List CbSpec → List WEv
  | [] => []
  | none :: rest => .cbInvoked i :: runCbs (i + 1) rest
  | some e :: rest =>
    .cbInvoked i :: .logged ("WebView load callback error: " ++ e) :: runCbs (i + 1) rest

/-- `CleanWebView._on_load_finished(success)`: on success emit
`content_loaded` then `bridge_ready`, then run every registered callback in
registration order; on failure emit `content_failed`. -/
def onLoadFinished (success : Bool) (cbs : List CbSpec) : List WEv :=
  if success then .contentLoaded :: .bridgeReady :: runCbs 0 cbs
  else [.contentFailed "WebView failed to load content"]

/-- The indices of invoked callbacks, in trace order. -/
def invokedIdxs (tr : List WEv) : List Nat :=
  tr.filterMap (fun e => match e with | .cbInvoked i => some i | _ => none)

theorem invokedIdxs_runCbs (cbs : List CbSpec) (i : Nat) :
    invokedIdxs (runCbs i cbs) = List.range' i cbs.length := by
  induction cbs generalizing i with
  | nil => rfl
  | cons c rest ih =>
    cases c with
    | none =>
      simp only [runCbs, invokedIdxs, List.filterMap_cons, List.length_cons, List.range'_succ]
      rw [← invokedIdxs, ih]
    | some e =>
      simp only [runCbs, invokedIdxs, List.filterMap_cons, List.length_cons, List.range'_succ]
      rw [← invokedIdxs, ih]

/-- C8: on a successful load the widget emits `content_loaded` then
`bridge_ready`, then invokes every registered load callback exactly once in
registration order (`invokedIdxs` of the remaining trace is exactly
`0, 1, ..., n-1`); a raising callback only adds a log line and never prevents
the remaining callbacks from running. -/
theorem load_finished_emits_then_runs_callbacks (cbs : List CbSpec) :
    onLoadFinished true cbs = .contentLoaded :: .bridgeReady :: runCbs 0 cbs ∧
    invokedIdxs (runCbs 0 cbs) = List.range cbs.length := by
  refine ⟨rfl, ?_⟩
  rw [invokedIdxs_runCbs, List.range_eq_range']

/-- C3: `load_content` picks exactly one source with fixed precedence — the
production `{root}/index.html` whenever the root is configured and that file
exists (whatever else is configured); otherwise the configured and existing
dev HTML file; otherwise the truthy inline dev HTML string; and with no
source available it attempts no load and fails with the constant
`no content available` reason, identical on every call. -/
theorem load_content_precedence (fs : String → Bool) (c : WVConfig) :
    (∀ root, c.webContentPath = some root → fs (root ++ "/index.html") = true →
      loadContent fs c = .file (root ++ "/index.html")) ∧
    (resolveProd fs c = none → ∀ p, c.devHtmlPath = some p → fs p = true →
      loadContent fs c = .file p) ∧
    (resolveProd fs c = none → resolveDevFile fs c = none →
      ∀ s, c.devHtmlContent = some s → s ≠ "" → loadContent fs c = .inlineHtml s) ∧
    (resolveProd fs c = none → resolveDevFile fs c = none →
      (c.devHtmlContent = none ∨ c.devHtmlContent = some "") →
      loadContent fs c = .failed noContentMsg) := by
  refine ⟨?_, ?_, ?_, ?_⟩
  · intro root hr hfs
    simp [loadContent, resolveProd, hr, hfs]
  · intro hp p hd hfs
    simp [loadContent, hp, resolveDevFile, hd, hfs]
  · intro hp hd s hc hs
    simp [loadContent, hp, hd, hc, hs]
  · intro hp hd hc
    rcases hc with hc | hc <;> simp [loadContent, hp, hd, hc]

/-- Witness for the precedence theorem: all four branches at concrete
configurations and file systems. -/
theorem load_content_precedence_witness :
    loadContent (fun p => p == "r/index.html")
      ⟨some "r", some "r/dev.html", some "<p>x</p>"⟩ = .file "r/index.html" ∧
    loadContent (fun p => p == "r/dev.html")
      ⟨some "r", some "r/dev.html", some "<p>x</p>"⟩ = .file "r/dev.html" ∧
    loadContent (fun _ => false)
      ⟨some "r", some "r/dev.html", some "<p>x</p>"⟩ = .inlineHtml "<p>x</p>" ∧
    loadContent (fun _ => false) ⟨some "r", none, none⟩ = .failed noContentMsg := by
  refine ⟨?_, ?_, ?_, ?_⟩
  · exact (load_content_precedence (fun p => p == "r/index.html") _).1 "r" rfl rfl
  · exact (load_content_precedence (fun p => p == "r/dev.html")
      ⟨some "r", some "r/dev.html", some "<p>x</p>"⟩).2.1 rfl "r/dev.html" rfl rfl
  · exact (load_content_precedence (fun _ => false)
      ⟨some "r", some "r/dev.html", some "<p>x</p>"⟩).2.2.1 rfl rfl "<p>x</p>" rfl (by decide)
  · exact (load_content_precedence (fun _ => false)
      ⟨some "r", none, none⟩).2.2.2 rfl rfl (Or.inl rfl)

/-- C10: setting the inline dev HTML to the empty string leaves it falsy, so
when neither the production file nor the dev HTML file resolves,
`load_content` does not load an empty page but fails with the constant
`no content available` reason. -/
theorem empty_dev_html_content_is_absent (fs : String → Bool) (c : WVConfig)
    (hp : resolveProd fs c = none) (hd : resolveDevFile fs c = none) :
    loadContent fs (setDevHtmlContent "" c) = .failed noContentMsg := by
  have hp' : resolveProd fs (setDevHtmlContent "" c) = none := hp
  have hd' : resolveDevFile fs (setDevHtmlContent "" c) = none := hd
  unfold loadContent
  rw [hp', hd']
  rfl

/-- Witness for the empty-inline-content theorem. -/
theorem empty_dev_html_content_is_absent_witness :
    loadContent (fun _ => false) (setDevHtmlContent "" (setWebContent "r" (some "d.html") emptyWV))
      = .failed noContentMsg := by
  exact empty_dev_html_content_is_absent (fun _ => false) _ rfl rfl

/-! ### JSON parsing (`json.loads`) and the ActionBridge -/

/-- JSON whitespace. -/
def isWsChar (c : Char) : Bool := c == ' ' || c == '\t' || c == '\n' || c == '\r'

/-- Skip leading whitespace. -/
def skipWs : List Char → List Char
  | [] => []
  | c :: cs => if isWsChar c then skipWs cs else c :: cs

/-- ASCII digit test. -/
def isDigitCh (c : Char) : Bool := '0' ≤ c && c ≤ '9'

/-- Split a leading run of digits from the rest. -/
def readDigits : List Char → (List Char × List Char)
  | [] => ([], [])
  | c :: cs =>
    if isDigitCh c then
      let r := readDigits cs
      (c :: r.1, r.2)
    else ([], c :: cs)

/-- Numeric value of a digit run. -/
def digitsToNat (ds : List Char) : Nat :=
  ds.foldl (fun a c => a * 10 + (c.toNat - 48)) 0

/-- Hexadecimal digit value. -/
def hexVal (c : Char) : Option Nat :=
  if isDigitCh c then some (c.toNat - 48)
  else if 'a' ≤ c && c ≤ 'f' then some (c.toNat - 87)
  else if 'A' ≤ c && c ≤ 'F' then some (c.toNat - 55)
  else none

/-- The opening-brace character. -/
def lbraceC : Char := Char.ofNat 123

/-- The closing-brace character. -/
def rbraceC : Char := Char.ofNat 125

/-- Parse a JSON string body after the opening quote: contents and the rest
after the closing quote.  Handles the standard escapes; unescaped control
characters are rejected as in Python's strict default; `\uXXXX` is limited to
non-surrogate code points in this model. -/
def parseStrBody : List Char → Option (List Char × List Char)
  | [] => none
  | c :: cs =>
    if c == '"' then some ([], cs)
    else if c == '\\' then
      match cs with
      | [] => none
      | e :: cs' =>
        if e == '"' then (parseStrBody cs').map (fun r => ('"' :: r.1, r.2))
        else if e == '\\' then (parseStrBody cs').map (fun r => ('\\' :: r.1, r.2))
        else if e == '/' then (parseStrBody cs').map (fun r => ('/' :: r.1, r.2))
        else if e == 'n' then (parseStrBody cs').map (fun r => ('\n' :: r.1, r.2))
        else if e == 't' then (parseStrBody cs').map (fun r => ('\t' :: r.1, r.2))
        else if e == 'r' then (parseStrBody cs').map (fun r => ('\r' :: r.1, r.2))
        else if e == 'b' then (parseStrBody cs').map (fun r => (Char.ofNat 8 :: r.1, r.2))
        else if e == 'f' then (parseStrBody cs').map (fun r => (Char.ofNat 12 :: r.1, r.2))
        else if e == 'u' then
          match cs' with
          | a :: b :: c2 :: d :: rest =>
            match hexVal a, hexVal b, hexVal c2, hexVal d with
            | some x, some y, some z, some w =>
              let n := ((x * 16 + y) * 16 + z) * 16 + w
              if n < 0xD800 ∨ 0xE000 ≤ n then
                (parseStrBody rest).map (fun r => (Char.ofNat n :: r.1, r.2))
              else none
            | _, _, _, _ => none
          | _ => none
        else none
    else if c.toNat < 32 then none
    else (parseStrBody cs).map (fun r => (c :: r.1, r.2))

/-- Parse an integer numeral (sign already consumed); numerals continuing
with `.`/`e`/`E` are floats, which this model does not represent. -/
def parseNumFrom (neg : Bool) (cs : List Char) : Option (JVal × List Char) :=
  let r := readDigits cs
  match r.1 with
  | [] => none
  | _ :: _ =>
    match r.2 with
    | c :: _ =>
      if c == '.' || c == 'e' || c == 'E' then none
      else some (.jnum (if neg then -(digitsToNat r.1 : Int) else (digitsToNat r.1 : Int)), r.2)
    | [] => some (.jnum (if neg then -(digitsToNat r.1 : Int) else (digitsToNat r.1 : Int)), [])

mutual

/-- Fuel-indexed recursive-descent JSON value parser. -/
def parseV : Nat → List Char → Option (JVal × List Char)
  | 0, _ => none
  | Nat.succ fuel, cs =>
    match skipWs cs with
    | [] => none
    | c :: rest =>
      if c == '"' then (parseStrBody rest).map (fun r => (.jstr (String.mk r.1), r.2))
      else if c == 't' then
        match rest with
        | 'r' :: 'u' :: 'e' :: r => some (.jbool true, r)
        | _ => none
      else if c == 'f' then
        match rest with
        | 'a' :: 'l' :: 's' :: 'e' :: r => some (.jbool false, r)
        | _ => none
      else if c == 'n' then
        match rest with
        | 'u' :: 'l' :: 'l' :: r => some (.jnull, r)
        | _ => none
      else if c == '-' then parseNumFrom true rest
      else if isDigitCh c then parseNumFrom false (c :: rest)
      else if c == '[' then
        match skipWs rest with
        | ']' :: r => some (.jarr [], r)
        | cs2 => (parseElems fuel cs2).map (fun r => (.jarr r.1, r.2))
      else if c == lbraceC then
        match skipWs rest with
        | c2 :: r =>
          if c2 == rbraceC then some (.jobj [], r)
          else (parseMembers fuel (c2 :: r)).map
            (fun r2 => (.jobj (r2.1.foldl (fun acc p => dictInsert p.1 p.2 acc) []), r2.2))
        | [] => none
      else none

/-- Parse one-or-more comma-separated array elements up to `]`. -/
def parseElems : Nat → List Char → Option (List JVal × List Char)
  | 0, _ => none
  | Nat.succ fuel, cs =>
    match parseV fuel cs with
    | some (v, r) =>
      match skipWs r with
      | ',' :: r2 => (parseElems fuel r2).map (fun t => (v :: t.1, t.2))
      | ']' :: r2 => some ([v], r2)
      | _ => none
    | none => none

/-- Parse one-or-more comma-separated object members up to the closing brace. -/
def parseMembers : Nat → List Char → Option (List (String × JVal) × List Char)
  | 0, _ => none
  | Nat.succ fuel, cs =>
    match skipWs cs with
    | c :: r =>
      if c == '"' then
        match parseStrBody r with
        | some (kcs, r2) =>
          match skipWs r2 with
          | ':' :: r3 =>
            match parseV fuel r3 with
            | some (v, r4) =>
              match skipWs r4 with
              | ',' :: r5 => (parseMembers fuel r5).map (fun t => ((String.mk kcs, v) :: t.1, t.2))
              | c2 :: r5 => if c2 == rbraceC then some ([(String.mk kcs, v)], r5) else none
              | [] => none
            | none => none
          | _ => none
        | none => none
      else none
    | [] => none

end

/-- Model of `json.loads`: a full parse of the input with only trailing
whitespace remaining. -/
def pyParse (s : String) : Option JVal :=
  match parseV (2 * s.data.length + 2) s.data with
  | some (v, r) => if skipWs r = [] then some v else none
  | none => none

/-- `WebViewBridge._safe_json_loads`: the decoded value, or an empty dict
plus an error event on failure (the interpolated exception text is abstracted
to a fixed prefix). -/
def safeLoads (s : String) : JVal × List Ev :=
  match pyParse s with
  | some v => (v, [])
  | none => (.jobj [], [.errorOccurred "JSON parsing error"])

/-- Python `result or {}` applied to the handler result (`None` is `jnull`). -/
def pyOrEmpty (v : JVal) : JVal :=
  if pyTruthy v then v else .jobj []

/-- `ActionBridge.execute_action(action_type, params_json)`: decode the
params; with no registered handler only an error event fires; with a handler,
`action_requested` fires with the raw JSON, the handler is invoked with the
decoded params, and `action_completed` fires keyed by the decoded params'
`action_id` field if present else by the action type, carrying the encoded
`result or {}`.  Decoded params that are not an object make the
`params.get` attribute access raise, which the surrounding `except` turns
into an error event after the handler has run. -/
def executeAction (handlers : List (String × (JVal → JVal))) (a pj : String) : List Ev :=
  let dec := safeLoads pj
  match lookupAssoc a handlers with
  | some h =>
    dec.2 ++ (Ev.actionRequested a pj ::
      (let result := h dec.1
       match dec.1 with
       | .jobj fs =>
         let key := match lookupAssoc "action_id" fs with
           | some v => v
           | none => JVal.jstr a
         [Ev.actionCompleted key (pyDumps (pyOrEmpty result))]
       | _ => [Ev.errorOccurred "Action execution error"]))
  | none => dec.2 ++ [Ev.errorOccurred ("No handler registered for action: " ++ a)]

/-- C4 (amended): with a registered handler and params decoding to an object,
`execute_action` emits exactly one `action_requested` event carrying the
action type and the raw params JSON, then invokes the handler synchronously
on the decoded params, then emits exactly one `action_completed` event keyed
by the decoded params' `action_id` field if present and otherwise by the
action type — carrying the JSON-encoded handler result when that result is
truthy, and an encoded empty object when the handler returned nothing
(`None`) or any other falsy value. -/
theorem execute_action_requested_then_completed
    (handlers : List (String × (JVal → JVal))) (a pj : String)
    (h : JVal → JVal) (fs : List (String × JVal))
    (hh : lookupAssoc a handlers = some h)
    (hp : pyParse pj = some (.jobj fs)) :
    executeAction handlers a pj =
      [.actionRequested a pj,
       .actionCompleted
         (match lookupAssoc "action_id" fs with | some v => v | none => JVal.jstr a)
         (if pyTruthy (h (.jobj fs)) then pyDumps (h (.jobj fs)) else pyDumps (.jobj []))] := by
  simp only [executeAction, safeLoads, hp, hh]
  by_cases ht : pyTruthy (h (.jobj fs)) <;> simp [pyOrEmpty, ht]

/-- Witness for the `execute_action` theorem on the specification's example:
handler returning a status object, params carrying `action_id = "a1"`. -/
theorem execute_action_requested_then_completed_witness :
    executeAction [("go", fun _ => JVal.jobj [("status", JVal.jstr "ok")])] "go"
        "\x7b\"action_id\": \"a1\"\x7d" =
      [.actionRequested "go" "\x7b\"action_id\": \"a1\"\x7d",
       .actionCompleted (.jstr "a1") ("\x7b\"status\": \"ok\"\x7d")] := by
  have h := execute_action_requested_then_completed
    [("go", fun _ => JVal.jobj [("status", JVal.jstr "ok")])] "go"
    "\x7b\"action_id\": \"a1\"\x7d" _ [("action_id", JVal.jstr "a1")] rfl rfl
  rw [h]
  rfl

/-- Counterexample to C4 as stated: a handler that returns the JSON value
`false` — a result, not "nothing" — still yields an `action_completed`
payload of an encoded empty object, not the JSON encoding `"false"` of the
handler result, because `result or {}` replaces every falsy result. -/
theorem execute_action_falsy_result_counterexample :
    executeAction [("go", fun _ => JVal.jbool false)] "go" "\x7b\"action_id\": \"a1\"\x7d" =
      [.actionRequested "go" "\x7b\"action_id\": \"a1\"\x7d",
       .actionCompleted (.jstr "a1") (lbrace ++ rbrace)] ∧
    pyDumps (JVal.jbool false) = "false" ∧
    ¬ (executeAction [("go", fun _ => JVal.jbool false)] "go" "\x7b\"action_id\": \"a1\"\x7d" =
       [.actionRequested "go" "\x7b\"action_id\": \"a1\"\x7d",
        .actionCompleted (.jstr "a1") (pyDumps (JVal.jbool false))]) := by
  refine ⟨rfl, rfl, ?_⟩
  intro hcl
  have h1 : executeAction [("go", fun _ => JVal.jbool false)] "go"
      "\x7b\"action_id\": \"a1\"\x7d" =
      [.actionRequested "go" "\x7b\"action_id\": \"a1\"\x7d",
       .actionCompleted (.jstr "a1") (lbrace ++ rbrace)] := rfl
  rw [h1] at hcl
  have h2 := (List.cons.inj hcl).2
  have h3 := (List.cons.inj h2).1
  injection h3 with hk hr
  exact absurd hr (by decide)

/-! ### The list/index synchronisation invariant (DataBridge) -/

/-- The reference held for id `k` after scanning the reference list: the last
list entry whose item has truthy string id `k` (what the comprehension's
last-write-wins stores). -/
def lastWith (h : Nat → Item) (k : String) : List Nat → Option Nat
  | [] => none
  | r :: rs =>
    match lastWith h k rs with
    | some x => some x
    | none => if idOf h r = some k then some r else none

/-- The claim's synchronisation invariant: every item in the ordered list
that carries an id has an entry in the id-keyed map under that id, and every
map entry's object appears in the list. -/
def syncInv (db : DB) : Bool :=
  db.items.all (fun r =>
    match idOf db.heap r with
    | some s => (lookupAssoc s db.byId).isSome
    | none => true) &&
  db.byId.all (fun p => db.items.contains p.2)

/-- The mutating DataBridge operations of the claim. -/
inductive DOp where
  | set (S : List Item)
  | add (it : Item)
  | upd (i : String) (d : Item)
  | rem (i : String)

/-- An item carrying a truthy string id, as the data model mandates. -/
def wfItem (it : Item) : Bool :=
  (truthyStrId it).isSome

/-- Well-formed operations: supplied items carry truthy string ids, and
partial updates do not rewrite the `id` field. -/
def wfOp : DOp → Bool
  | .set S => S.all wfItem
  | .add it => wfItem it
  | .upd _ d => (lookupAssoc "id" d).isNone
  | .rem _ => true

/-- Apply one operation (events discarded). -/
def applyOp (db : DB) : DOp → DB
  | .set S => (setItems S db).1
  | .add it => (addItem it db).1
  | .upd i d => (updateItem i d db).1
  | .rem i => (removeItem i db).1

/-- Apply a sequence of operations from the left. -/
def applyOps (ops : List DOp) (db : DB) : DB :=
  ops.foldl applyOp db

/-- The inductive invariant: all listed items have truthy string ids, the
index is lookup-extensionally the last-occurrence index of the list, its keys
are unique, and every reference is below the allocation bound. -/
def DBInv (db : DB) : Prop :=
  (∀ r ∈ db.items, (idOf db.heap r).isSome) ∧
  (∀ k, lookupAssoc k db.byId = lastWith db.heap k db.items) ∧
  (db.byId.map Prod.fst).Nodup ∧
  (∀ r ∈ db.items, r < db.next) ∧
  (∀ p ∈ db.byId, p.2 < db.next)

theorem lookupAssoc_rebuild (h : Nat → Item) (rs : List Nat) (acc : List (String × Nat))
    (k : String) :
    lookupAssoc k (rebuild h rs acc) =
      match lastWith h k rs with
      | some r => some r
      | none => lookupAssoc k acc := by
  induction rs generalizing acc with
  | nil => rfl
  | cons r rest ih =>
    simp only [rebuild, lastWith]
    cases hid : idOf h r with
    | some s =>
      rw [ih]
      cases hl : lastWith h k rest with
      | some x => rfl
      | none =>
        rw [lookupAssoc_dictInsert]
        by_cases hsk : s = k
        · subst hsk; simp
        · simp [hsk]
    | none =>
      rw [ih]
      cases hl : lastWith h k rest with
      | some x => rfl
      | none => simp [hid]

theorem lookupAssoc_rebuild_nil (h : Nat → Item) (rs : List Nat) (k : String) :
    lookupAssoc k (rebuild h rs []) = lastWith h k rs := by
  rw [lookupAssoc_rebuild]
  cases lastWith h k rs <;> rfl

theorem lastWith_mem (h : Nat → Item) (k : String) (l : List Nat) (r : Nat)
    (hl : lastWith h k l = some r) : r ∈ l := by
  induction l with
  | nil => cases hl
  | cons a rest ih =>
    simp only [lastWith] at hl
    cases hr : lastWith h k rest with
    | some x =>
      rw [hr] at hl
      cases hl
      exact List.mem_cons_of_mem _ (ih hr)
    | none =>
      rw [hr] at hl
      by_cases hc : idOf h a = some k
      · rw [if_pos hc] at hl
        cases hl
        exact List.mem_cons_self _ _
      · rw [if_neg hc] at hl
        cases hl

theorem lastWith_id (h : Nat → Item) (k : String) (l : List Nat) (r : Nat)
    (hl : lastWith h k l = some r) : idOf h r = some k := by
  induction l with
  | nil => cases hl
  | cons a rest ih =>
    simp only [lastWith] at hl
    cases hr : lastWith h k rest with
    | some x =>
      rw [hr] at hl
      cases hl
      exact ih hr
    | none =>
      rw [hr] at hl
      by_cases hc : idOf h a = some k
      · rw [if_pos hc] at hl
        cases hl
        exact hc
      · rw [if_neg hc] at hl
        cases hl

theorem lastWith_isSome_of_mem (h : Nat → Item) (k : String) (l : List Nat) (r : Nat)
    (hm : r ∈ l) (hid : idOf h r = some k) : (lastWith h k l).isSome := by
  induction l with
  | nil => cases hm
  | cons a rest ih =>
    simp only [lastWith]
    rcases List.mem_cons.mp hm with rfl | hm'
    · cases hr : lastWith h k rest with
      | some x => rfl
      | none => rw [if_pos hid]; rfl
    · cases hr : lastWith h k rest with
      | some x => rfl
      | none =>
        have := ih hm'
        rw [hr] at this
        cases this

theorem lastWith_congr (h1 h2 : Nat → Item) (k : String) (l : List Nat)
    (hid : ∀ r ∈ l, idOf h1 r = idOf h2 r) :
    lastWith h1 k l = lastWith h2 k l := by
  induction l with
  | nil => rfl
  | cons a rest ih =>
    simp only [lastWith]
    rw [ih (fun r hr => hid r (List.mem_cons_of_mem _ hr)),
        hid a (List.mem_cons_self _ _)]

theorem lastWith_append_single (h : Nat → Item) (k : String) (l : List Nat) (r : Nat) :
    lastWith h k (l ++ [r]) =
      if idOf h r = some k then some r else lastWith h k l := by
  induction l with
  | nil =>
    simp only [List.nil_append, lastWith]
  | cons a rest ih =>
    have hstep : lastWith h k ((a :: rest) ++ [r]) =
        match lastWith h k (rest ++ [r]) with
        | some x => some x
        | none => if idOf h a = some k then some a else none := rfl
    rw [hstep, ih]
    by_cases hc : idOf h r = some k
    · rw [if_pos hc, if_pos hc]
    · rw [if_neg hc, if_neg hc]
      rfl

theorem mem_keys_dictInsert {α : Type} (x k : String) (v : α) (m : List (String × α)) :
    x ∈ (dictInsert k v m).map Prod.fst ↔ x ∈ m.map Prod.fst ∨ x = k := by
  induction m with
  | nil => simp [dictInsert]
  | cons p rest ih =>
    obtain ⟨a, b⟩ := p
    simp only [dictInsert]
    by_cases hk : a = k
    · rw [if_pos hk]
      subst hk
      simp only [List.map_cons, List.mem_cons]
      tauto
    · rw [if_neg hk]
      simp only [List.map_cons, List.mem_cons, ih]
      tauto

theorem nodup_keys_dictInsert {α : Type} (k : String) (v : α) (m : List (String × α))
    (h : (m.map Prod.fst).Nodup) : ((dictInsert k v m).map Prod.fst).Nodup := by
  induction m with
  | nil => simp [dictInsert]
  | cons p rest ih =>
    obtain ⟨a, b⟩ := p
    simp only [List.map_cons, List.nodup_cons] at h
    simp only [dictInsert]
    by_cases hk : a = k
    · rw [if_pos hk]
      subst hk
      simp only [List.map_cons, List.nodup_cons]
      exact h
    · rw [if_neg hk]
      simp only [List.map_cons, List.nodup_cons]
      refine ⟨?_, ih h.2⟩
      intro hmem
      rcases (mem_keys_dictInsert a k v rest).mp hmem with hm | hm
      · exact h.1 hm
      · exact hk hm

theorem nodup_keys_rebuild (h : Nat → Item) (rs : List Nat) (acc : List (String × Nat))
    (ha : (acc.map Prod.fst).Nodup) : ((rebuild h rs acc).map Prod.fst).Nodup := by
  induction rs generalizing acc with
  | nil => exact ha
  | cons r rest ih =>
    simp only [rebuild]
    cases idOf h r with
    | some s => exact ih _ (nodup_keys_dictInsert s r acc ha)
    | none => exact ih _ ha

theorem mem_dictInsert {α : Type} (p : String × α) (k : String) (v : α)
    (m : List (String × α)) (h : p ∈ dictInsert k v m) : p = (k, v) ∨ p ∈ m := by
  induction m with
  | nil =>
    simp only [dictInsert, List.mem_singleton] at h
    exact Or.inl h
  | cons q rest ih =>
    obtain ⟨a, b⟩ := q
    simp only [dictInsert] at h
    by_cases hk : a = k
    · rw [if_pos hk] at h
      rcases List.mem_cons.mp h with h | h
      · exact Or.inl h
      · exact Or.inr (List.mem_cons_of_mem _ h)
    · rw [if_neg hk] at h
      rcases List.mem_cons.mp h with h | h
      · exact Or.inr (List.mem_cons.mpr (Or.inl h))
      · rcases ih h with h' | h'
        · exact Or.inl h'
        · exact Or.inr (List.mem_cons_of_mem _ h')

theorem rebuild_ref_prop (P : Nat → Prop) (h : Nat → Item) (rs : List Nat)
    (acc : List (String × Nat)) (hacc : ∀ p ∈ acc, P p.2) (hrs : ∀ r ∈ rs, P r) :
    ∀ p ∈ rebuild h rs acc, P p.2 := by
  induction rs generalizing acc with
  | nil => exact hacc
  | cons r rest ih =>
    simp only [rebuild]
    cases idOf h r with
    | some s =>
      refine ih _ ?_ (fun r' hr' => hrs r' (List.mem_cons_of_mem _ hr'))
      intro p hp
      rcases mem_dictInsert p s r acc hp with rfl | hp'
      · exact hrs r (List.mem_cons_self _ _)
      · exact hacc p hp'
    | none => exact ih _ hacc (fun r' hr' => hrs r' (List.mem_cons_of_mem _ hr'))

theorem idEqStr_true_iff (it : Item) (i : String) (hs : (truthyStrId it).isSome = true) :
    idEqStr it i = true ↔ truthyStrId it = some i := by
  unfold idEqStr
  unfold truthyStrId at hs ⊢
  cases hlook : lookupAssoc "id" it with
  | none =>
    rw [hlook] at hs
    exact Bool.noConfusion (show false = true from hs)
  | some v =>
    rw [hlook] at hs
    cases v with
    | jstr s =>
      show (s == i) = true ↔ (if s = "" then none else some s) = some i
      have hs' : (if s = "" then none else (some s : Option String)).isSome = true := hs
      by_cases hse : s = ""
      · rw [if_pos hse] at hs'
        exact Bool.noConfusion (show false = true from hs')
      · rw [if_neg hse]
        simp [beq_iff_eq]
    | jnum n => exact Bool.noConfusion (show false = true from hs)
    | jbool b => exact Bool.noConfusion (show false = true from hs)
    | jnull => exact Bool.noConfusion (show false = true from hs)
    | jarr xs => exact Bool.noConfusion (show false = true from hs)
    | jobj fs => exact Bool.noConfusion (show false = true from hs)

theorem truthyStrId_pyDictUpdate (x d : Item) (hd : lookupAssoc "id" d = none) :
    truthyStrId (pyDictUpdate x d) = truthyStrId x := by
  unfold truthyStrId
  rw [pyDictUpdate_lookup_of_absent d x "id" hd]

theorem mem_replaceFirst {α : Type} (p : α → Bool) (v : α) (l : List α) (x : α)
    (h : x ∈ replaceFirst p v l) : x ∈ l ∨ x = v := by
  induction l with
  | nil => cases h
  | cons a rest ih =>
    simp only [replaceFirst] at h
    cases hp : p a with
    | true =>
      rw [hp] at h
      simp only [if_true] at h
      rcases List.mem_cons.mp h with h | h
      · exact Or.inr h
      · exact Or.inl (List.mem_cons_of_mem _ h)
    | false =>
      rw [hp] at h
      simp only [Bool.false_eq_true, if_false] at h
      rcases List.mem_cons.mp h with h | h
      · exact Or.inl (List.mem_cons.mpr (Or.inl h))
      · rcases ih h with h' | h'
        · exact Or.inl (List.mem_cons_of_mem _ h')
        · exact Or.inr h'

theorem replaceFirst_congr {α : Type} (p q : α → Bool) (v : α) (l : List α)
    (h : ∀ x ∈ l, p x = q x) : replaceFirst p v l = replaceFirst q v l := by
  induction l with
  | nil => rfl
  | cons a rest ih =>
    simp only [replaceFirst]
    rw [h a (List.mem_cons_self _ _)]
    cases hq : q a with
    | true => simp
    | false =>
      simp only [Bool.false_eq_true, if_false]
      rw [ih (fun x hx => h x (List.mem_cons_of_mem _ hx))]

theorem lastWith_replaceFirst (h : Nat → Item) (p : Nat → Bool) (i : String) (r0 : Nat)
    (l : List Nat) (k : String)
    (hp : ∀ r ∈ l, (p r = true ↔ idOf h r = some i))
    (hlast : lastWith h i l = some r0)
    (hr0 : idOf h r0 = some i) :
    lastWith h k (replaceFirst p r0 l) = lastWith h k l := by
  induction l with
  | nil => cases hlast
  | cons a rest ih =>
    have hla : lastWith h i (a :: rest) = some r0 := hlast
    simp only [lastWith] at hla
    cases hlr : lastWith h i rest with
    | some x =>
      rw [hlr] at hla
      cases hla
      cases hpa : p a with
      | true =>
        simp only [replaceFirst, hpa, if_true, lastWith]
        have hida : idOf h a = some i :=
          (hp a (List.mem_cons_self _ _)).mp hpa
        cases hlk : lastWith h k rest with
        | some y => rfl
        | none =>
          by_cases hk : k = i
          · subst hk
            rw [hlk] at hlr
            cases hlr
          · rw [if_neg (by rw [hr0]; exact fun hc => hk (Option.some.inj hc).symm),
              if_neg (by rw [hida]; exact fun hc => hk (Option.some.inj hc).symm)]
      | false =>
        simp only [replaceFirst, hpa, Bool.false_eq_true, if_false, lastWith]
        rw [ih (fun r hr => hp r (List.mem_cons_of_mem _ hr)) hlr]
    | none =>
      rw [hlr] at hla
      by_cases hc : idOf h a = some i
      · rw [if_pos hc] at hla
        have ha : a = r0 := Option.some.inj hla
        have hpa : p a = true := (hp a (List.mem_cons_self _ _)).mpr hc
        simp only [replaceFirst, hpa, if_true]
        rw [ha]
      · rw [if_neg hc] at hla
        cases hla

/-! ### Invariant preservation -/

theorem DBInv_setItemsRefs (db : DB) (rs : List Nat)
    (hids : ∀ r ∈ rs, (idOf db.heap r).isSome)
    (hbound : ∀ r ∈ rs, r < db.next) :
    DBInv (setItemsRefs rs db).1 := by
  simp only [setItemsRefs]
  refine ⟨hids, ?_, ?_, hbound, ?_⟩
  · intro k
    exact lookupAssoc_rebuild_nil db.heap rs k
  · exact nodup_keys_rebuild db.heap rs [] (by simp)
  · intro q hq
    exact rebuild_ref_prop (fun r => r < db.next) db.heap rs [] (by simp) hbound q hq

theorem DBInv_setItems (db : DB) (S : List Item) (hS : S.all wfItem = true) :
    DBInv (setItems S db).1 := by
  simp only [setItems]
  apply DBInv_setItemsRefs
  · intro r hr
    have hmem : (allocAll db.heap db.next S).1 r ∈ S := by
      have hm := List.mem_map_of_mem (allocAll db.heap db.next S).1 hr
      rw [allocAll_map S db.heap db.next] at hm
      exact hm
    exact (List.all_eq_true.mp hS) _ hmem
  · intro r hr
    have h1 := allocAll_refs_lt S db.heap db.next r hr
    have h2 := allocAll_next S db.heap db.next
    show r < (allocAll db.heap db.next S).2.1
    omega

theorem DBInv_addItem (db : DB) (it : Item) (hit : wfItem it = true) (hInv : DBInv db) :
    DBInv (addItem it db).1 := by
  obtain ⟨hids, hlook, hnd, hbi, hbb⟩ := hInv
  cases hlk : lookupAssoc "id" it with
  | none =>
    exfalso
    unfold wfItem truthyStrId at hit
    rw [hlk] at hit
    cases hit
  | some idv =>
    simp only [addItem, hlk]
    apply DBInv_setItemsRefs
    · intro r hr
      rcases List.mem_append.mp hr with hr' | hr'
      · have hne : r ≠ db.next := Nat.ne_of_lt (hbi r hr')
        have hthis := hids r hr'
        unfold idOf at hthis ⊢
        simpa [hne] using hthis
      · have hre : r = db.next := List.mem_singleton.mp hr'
        unfold idOf
        simpa [hre, wfItem] using hit
    · intro r hr
      show r < db.next + 1
      rcases List.mem_append.mp hr with hr' | hr'
      · have := hbi r hr'
        omega
      · have hre : r = db.next := List.mem_singleton.mp hr'
        omega

theorem DBInv_removeItem (db : DB) (i : String) (hInv : DBInv db) :
    DBInv (removeItem i db).1 := by
  obtain ⟨hids, hlook, hnd, hbi, hbb⟩ := hInv
  cases hl : lookupAssoc i db.byId with
  | none =>
    simp only [removeItem, hl]
    exact ⟨hids, hlook, hnd, hbi, hbb⟩
  | some r0 =>
    simp only [removeItem, hl]
    apply DBInv_setItemsRefs
    · intro r hr
      exact hids r (List.mem_of_mem_filter hr)
    · intro r hr
      exact hbi r (List.mem_of_mem_filter hr)

theorem DBInv_updateItem (db : DB) (i : String) (d : Item)
    (hd : (lookupAssoc "id" d).isNone = true) (hInv : DBInv db) :
    DBInv (updateItem i d db).1 := by
  obtain ⟨hids, hlook, hnd, hbi, hbb⟩ := hInv
  have hdnone : lookupAssoc "id" d = none := by
    cases hx : lookupAssoc "id" d with
    | none => rfl
    | some v => rw [hx] at hd; exact Bool.noConfusion hd
  cases hl : lookupAssoc i db.byId with
  | none =>
    simp only [updateItem, hl]
    exact ⟨hids, hlook, hnd, hbi, hbb⟩
  | some r0 =>
    have hlast : lastWith db.heap i db.items = some r0 := by
      rw [← hlook i]; exact hl
    have hr0mem : r0 ∈ db.items := lastWith_mem _ _ _ _ hlast
    have hr0id : idOf db.heap r0 = some i := lastWith_id _ _ _ _ hlast
    have hr0lt : r0 < db.next := hbb (i, r0) (mem_of_lookupAssoc_eq_some i r0 _ hl)
    have hidpt : ∀ r,
        idOf (fun m => if m = r0 then pyDictUpdate (db.heap r0) d else db.heap m) r
          = idOf db.heap r := by
      intro r
      by_cases hr : r = r0
      · subst hr
        show truthyStrId (if r = r then pyDictUpdate (db.heap r) d else db.heap r)
          = truthyStrId (db.heap r)
        rw [if_pos rfl]
        exact truthyStrId_pyDictUpdate _ d hdnone
      · show truthyStrId (if r = r0 then pyDictUpdate (db.heap r0) d else db.heap r)
          = truthyStrId (db.heap r)
        rw [if_neg hr]
    have hpiff : ∀ r ∈ db.items,
        ((fun r => idEqStr ((fun m => if m = r0 then pyDictUpdate (db.heap r0) d
            else db.heap m) r) i) r = true ↔ idOf db.heap r = some i) := by
      intro r hr
      have hsome : (truthyStrId ((fun m => if m = r0 then pyDictUpdate (db.heap r0) d
          else db.heap m) r)).isSome = true := by
        have h1 : (idOf (fun m => if m = r0 then pyDictUpdate (db.heap r0) d
            else db.heap m) r).isSome = true := by
          rw [hidpt r]; exact hids r hr
        exact h1
      rw [idEqStr_true_iff _ i hsome]
      show idOf (fun m => if m = r0 then pyDictUpdate (db.heap r0) d
        else db.heap m) r = some i ↔ idOf db.heap r = some i
      rw [hidpt r]
    simp only [updateItem, hl]
    refine ⟨?_, ?_, hnd, ?_, hbb⟩
    · intro r hr
      have hgoal : (idOf (fun m => if m = r0 then pyDictUpdate (db.heap r0) d
          else db.heap m) r).isSome = true := by
        rw [hidpt r]
        rcases mem_replaceFirst _ _ _ _ hr with hr' | hr'
        · exact hids r hr'
        · rw [hr', hr0id]; rfl
      exact hgoal
    · intro k
      have h1 : lastWith (fun m => if m = r0 then pyDictUpdate (db.heap r0) d
            else db.heap m) k
            (replaceFirst (fun r => idEqStr ((fun m => if m = r0 then
              pyDictUpdate (db.heap r0) d else db.heap m) r) i) r0 db.items)
          = lastWith db.heap k
            (replaceFirst (fun r => idEqStr ((fun m => if m = r0 then
              pyDictUpdate (db.heap r0) d else db.heap m) r) i) r0 db.items) :=
        lastWith_congr _ _ k _ (fun r _ => hidpt r)
      have h2 : lastWith db.heap k
            (replaceFirst (fun r => idEqStr ((fun m => if m = r0 then
              pyDictUpdate (db.heap r0) d else db.heap m) r) i) r0 db.items)
          = lastWith db.heap k db.items :=
        lastWith_replaceFirst db.heap _ i r0 db.items k hpiff hlast hr0id
      have h3 : lookupAssoc k db.byId = lastWith db.heap k db.items := hlook k
      exact h3.trans (h2.symm.trans h1.symm)
    · intro r hr
      have hgoal : r < db.next := by
        rcases mem_replaceFirst _ _ _ _ hr with hr' | hr'
        · exact hbi r hr'
        · rw [hr']; exact hr0lt
      exact hgoal

theorem DBInv_empty : DBInv emptyDB := by
  refine ⟨?_, ?_, ?_, ?_, ?_⟩
  · intro r hr; simp [emptyDB] at hr
  · intro k; rfl
  · simp [emptyDB]
  · intro r hr; simp [emptyDB] at hr
  · intro p hp; simp [emptyDB] at hp

theorem DBInv_applyOp (db : DB) (op : DOp) (hwf : wfOp op = true) (hInv : DBInv db) :
    DBInv (applyOp db op) := by
  cases op with
  | set S => exact DBInv_setItems db S hwf
  | add it => exact DBInv_addItem db it hwf hInv
  | upd i d => exact DBInv_updateItem db i d hwf hInv
  | rem i => exact DBInv_removeItem db i hInv

theorem DBInv_applyOps (ops : List DOp) (db : DB) (hwf : ops.all wfOp = true)
    (hInv : DBInv db) : DBInv (applyOps ops db) := by
  induction ops generalizing db with
  | nil => exact hInv
  | cons op rest ih =>
    rw [List.all_cons, Bool.and_eq_true] at hwf
    exact ih (applyOp db op) hwf.2 (DBInv_applyOp db op hwf.1 hInv)

theorem syncInv_of_DBInv (db : DB) (hInv : DBInv db) : syncInv db = true := by
  obtain ⟨hids, hlook, hnd, hbi, hbb⟩ := hInv
  unfold syncInv
  rw [Bool.and_eq_true]
  constructor
  · rw [List.all_eq_true]
    intro r hr
    cases hid : idOf db.heap r with
    | none => rfl
    | some s =>
      show (lookupAssoc s db.byId).isSome = true
      rw [hlook s]
      exact lastWith_isSome_of_mem db.heap s db.items r hr hid
  · rw [List.all_eq_true]
    intro p hp
    obtain ⟨k, r⟩ := p
    have hlk : lookupAssoc k db.byId = some r :=
      lookupAssoc_eq_some_of_mem k r _ hnd hp
    rw [hlook k] at hlk
    have hmem := lastWith_mem _ _ _ _ hlk
    exact List.elem_iff.mpr hmem

/-- Counterexample to C1 as stated: `update_item` may rewrite the `id` field
of the stored record.  After `set_items([{id: "x"}])` and
`update_item("x", {id: "y"})` the single list item carries id `"y"` but the
lookup map has no entry under `"y"` (its only key is still `"x"`), so the two
structures are out of sync. -/
theorem sync_invariant_counterexample :
    syncInv (applyOps [DOp.set [[("id", JVal.jstr "x")]],
                       DOp.upd "x" [("id", JVal.jstr "y")]] emptyDB) = false := by
  rfl

/-- C1 (amended): for every sequence of `set_items`/`add_item`/`update_item`/
`remove_item` operations in which every supplied item carries a truthy string
id and no partial update rewrites the `id` field, the ordered item list and
the id-keyed lookup map stay in sync: every item in the list has an entry in
the map under its id, and every map entry's object appears in the list. -/
theorem sync_invariant_holds_for_wf_ops (ops : List DOp)
    (hwf : ops.all wfOp = true) :
    syncInv (applyOps ops emptyDB) = true :=
  syncInv_of_DBInv _ (DBInv_applyOps ops emptyDB hwf DBInv_empty)

/-- Witness for the amended synchronisation invariant on a concrete
operation sequence exercising all four operations. -/
theorem sync_invariant_holds_for_wf_ops_witness :
    List.all [DOp.set [[("id", JVal.jstr "x"), ("v", JVal.jnum 1)]],
              DOp.add [("id", JVal.jstr "y")],
              DOp.upd "x" [("v", JVal.jnum 2)],
              DOp.rem "y"] wfOp = true ∧
    syncInv (applyOps [DOp.set [[("id", JVal.jstr "x"), ("v", JVal.jnum 1)]],
                       DOp.add [("id", JVal.jstr "y")],
                       DOp.upd "x" [("v", JVal.jnum 2)],
                       DOp.rem "y"] emptyDB) = true :=
  ⟨rfl, sync_invariant_holds_for_wf_ops _ rfl⟩

/-! ### The add/remove round trip (C6) -/

/-- Counterexample to C6 as stated: if an item with id `"x"` is already
present, `add_item({id: "x", ...})` followed by `remove_item("x")` removes
both the new and the pre-existing item (`remove_item` filters every list
entry whose id equals `"x"`), so the item set does not return to its previous
state — here it becomes empty instead of keeping the original item. -/
theorem add_remove_roundtrip_counterexample :
    ¬ (obsItems (removeItem "x" (addItem [("id", JVal.jstr "x"), ("v", JVal.jnum 2)]
          (setItems [[("id", JVal.jstr "x"), ("v", JVal.jnum 1)]] emptyDB).1).1).1
        = obsItems (setItems [[("id", JVal.jstr "x"), ("v", JVal.jnum 1)]] emptyDB).1 ∧
       (∀ k, obsLookup (removeItem "x" (addItem [("id", JVal.jstr "x"), ("v", JVal.jnum 2)]
          (setItems [[("id", JVal.jstr "x"), ("v", JVal.jnum 1)]] emptyDB).1).1).1 k
        = obsLookup (setItems [[("id", JVal.jstr "x"), ("v", JVal.jnum 1)]] emptyDB).1 k)) := by
  intro hcl
  have h2 : ([] : List Item) = [[("id", JVal.jstr "x"), ("v", JVal.jnum 1)]] := hcl.1
  exact List.cons_ne_nil _ _ h2.symm

/-- C6 (amended): for every bridge state whose id index agrees with its item
list (as every state produced by the bridge's own operations with stable ids
does) and which contains no item with id `x`, adding an item carrying id `x`
and then removing `x` restores the item set: the observable list and the
observable id-keyed lookup are both unchanged. -/
theorem add_then_remove_roundtrip (db : DB) (x : String) (it : Item)
    (hx : x ≠ "")
    (hid : lookupAssoc "id" it = some (.jstr x))
    (hbound : ∀ r ∈ db.items, r < db.next)
    (hcanon : ∀ k, lookupAssoc k db.byId = lastWith db.heap k db.items)
    (hnox : ∀ r ∈ db.items, idEqStr (db.heap r) x = false) :
    obsItems (removeItem x (addItem it db).1).1 = obsItems db ∧
    ∀ k, obsLookup (removeItem x (addItem it db).1).1 k = obsLookup db k := by
  have hidit : truthyStrId it = some x := by
    unfold truthyStrId
    rw [hid]
    show (if x = "" then none else some x) = some x
    rw [if_neg hx]
  have hdb1 : (addItem it db).1 =
      { heap := fun m => if m = db.next then it else db.heap m,
        next := db.next + 1,
        items := db.items ++ [db.next],
        byId := rebuild (fun m => if m = db.next then it else db.heap m)
                  (db.items ++ [db.next]) [] } := by
    simp only [addItem, hid, setItemsRefs]
  have hlx : lookupAssoc x ((addItem it db).1).byId = some db.next := by
    rw [hdb1]
    show lookupAssoc x (rebuild (fun m => if m = db.next then it else db.heap m)
      (db.items ++ [db.next]) []) = some db.next
    rw [lookupAssoc_rebuild_nil, lastWith_append_single]
    rw [if_pos ?hc]
    case hc =>
      show truthyStrId (if db.next = db.next then it else db.heap db.next) = some x
      rw [if_pos rfl]
      exact hidit
  have hfilter : (db.items ++ [db.next]).filter
      (fun r => !(idEqStr (if r = db.next then it else db.heap r) x)) = db.items := by
    rw [List.filter_append]
    have h1 : db.items.filter
        (fun r => !(idEqStr (if r = db.next then it else db.heap r) x)) = db.items := by
      apply List.filter_eq_self.mpr
      intro r hr
      have hne : r ≠ db.next := Nat.ne_of_lt (hbound r hr)
      simp [hne, hnox r hr]
    have h2 : ([db.next] : List Nat).filter
        (fun r => !(idEqStr (if r = db.next then it else db.heap r) x)) = [] := by
      simp [idEqStr, hid]
    rw [h1, h2, List.append_nil]
  have hstep : (removeItem x (addItem it db).1).1 =
      { heap := fun m => if m = db.next then it else db.heap m,
        next := db.next + 1,
        items := db.items,
        byId := rebuild (fun m => if m = db.next then it else db.heap m) db.items [] } := by
    unfold removeItem
    rw [hlx]
    rw [hdb1]
    show (setItemsRefs ((db.items ++ [db.next]).filter
        (fun r => !(idEqStr (if r = db.next then it else db.heap r) x)))
      { heap := fun m => if m = db.next then it else db.heap m,
        next := db.next + 1,
        items := db.items ++ [db.next],
        byId := rebuild (fun m => if m = db.next then it else db.heap m)
                  (db.items ++ [db.next]) [] }).1 = _
    rw [hfilter]
    simp only [setItemsRefs]
  constructor
  · rw [hstep]
    show db.items.map (fun m => if m = db.next then it else db.heap m)
      = db.items.map db.heap
    apply List.map_congr_left
    intro r hr
    rw [if_neg (Nat.ne_of_lt (hbound r hr))]
  · intro k
    rw [hstep]
    show (lookupAssoc k (rebuild (fun m => if m = db.next then it else db.heap m)
        db.items [])).map (fun m => if m = db.next then it else db.heap m)
      = (lookupAssoc k db.byId).map db.heap
    rw [lookupAssoc_rebuild_nil]
    rw [lastWith_congr (fun m => if m = db.next then it else db.heap m) db.heap k db.items ?hcong]
    case hcong =>
      intro r hr
      show truthyStrId (if r = db.next then it else db.heap r) = truthyStrId (db.heap r)
      rw [if_neg (Nat.ne_of_lt (hbound r hr))]
    rw [← hcanon k]
    cases hlk : lookupAssoc k db.byId with
    | none => rfl
    | some r =>
      have hrmem : r ∈ db.items := by
        have hc := hcanon k
        rw [hlk] at hc
        exact lastWith_mem _ _ _ _ hc.symm
      show some (if r = db.next then it else db.heap r) = some (db.heap r)
      rw [if_neg (Nat.ne_of_lt (hbound r hrmem))]

/-- Witness for the round-trip theorem at a concrete state holding one item
with id `"z"`. -/
theorem add_then_remove_roundtrip_witness :
    obsItems (removeItem "x" (addItem [("id", JVal.jstr "x")]
        (setItems [[("id", JVal.jstr "z")]] emptyDB).1).1).1
      = obsItems (setItems [[("id", JVal.jstr "z")]] emptyDB).1 ∧
    ∀ k, obsLookup (removeItem "x" (addItem [("id", JVal.jstr "x")]
        (setItems [[("id", JVal.jstr "z")]] emptyDB).1).1).1 k
      = obsLookup (setItems [[("id", JVal.jstr "z")]] emptyDB).1 k := by
  apply add_then_remove_roundtrip
  · decide
  · rfl
  · intro r hr
    have hr' : r ∈ [0] := hr
    simp at hr'
    show r < 1
    omega
  · intro k
    exact lookupAssoc_rebuild_nil
      (setItems [[("id", JVal.jstr "z")]] emptyDB).1.heap [0] k
  · intro r hr
    have hr' : r ∈ [0] := hr
    simp at hr'
    subst hr'
    rfl
